import Mathlib

set_option maxHeartbeats 1000000

/-!
Shallow embedding of the AIDA Drive Connector (src/main.py), a FastAPI
service that lists, reads, chunks, embeds and searches Google Drive
documents.  Python strings are modelled as lists of characters, floating
point embedding coordinates as rationals, and the external collaborators
(spaCy models, the Drive client, the SentenceTransformer encoder) as
function parameters.  Each definition is annotated with the source lines
it embeds.
-/

/-- Python strings, modelled as lists of characters. -/
abbrev Str := List Char

/-- The characters removed by Python `str.strip()` with no argument. -/
def wsChars : List Char := [' ', '\t', '\n', '\r', '\x0b', '\x0c']

/-- Two-sided trim by a character predicate: the shape of Python `str.strip`. -/
def stripP (p : Char → Bool) (s : Str) : Str :=
  ((s.dropWhile p).reverse.dropWhile p).reverse

/-- Python `s.strip(chars)`. -/
def pyStripChars (cs : List Char) (s : Str) : Str :=
  stripP (fun c => cs.contains c) s

/-- Python `s.strip()`. -/
def strip (s : Str) : Str := pyStripChars wsChars s

/-- Python `s.lower()`, restricted to the ASCII mapping (`Char.toLower`);
adequate for every literal that appears in the source's tables. -/
def pyLower (s : Str) : Str := s.map Char.toLower

/-- `leadsOf a b` holds when `a` is an initial segment of `b`. -/
def leadsOf : Str → Str → Bool
  | [], _ => true
  | _ :: _, [] => false
  | a :: as, b :: bs => a == b && leadsOf as bs

/-- Python `needle in hay` on strings: contiguous-substring test. -/
def strIn (needle : Str) : Str → Bool
  | [] => leadsOf needle []
  | c :: t => leadsOf needle (c :: t) || strIn needle t

/-- `main.py` lines 58-67: the static bilingual synonym table `SINONIMOS`. -/
def SINONIMOS : List (Str × List Str) := [
  ("governança de dados".data,
    ["data governance".data, "gestão de dados".data, "política de dados".data,
     "data management".data]),
  ("qualidade de dados".data,
    ["data quality".data, "data cleansing".data, "data validation".data]),
  ("catálogo de dados".data,
    ["data catalog".data, "metadata management".data]),
  ("lago de dados".data,
    ["data lake".data, "data repository".data]),
  ("segurança da informação".data,
    ["information security".data, "data privacy".data, "cybersecurity".data]),
  ("arquitetura de dados".data,
    ["data architecture".data, "data modeling".data, "data structure".data]),
  ("integração de dados".data,
    ["data integration".data, "ETL".data, "data ingestion".data]),
  ("governança".data,
    ["governance".data, "management".data, "oversight".data])]

/-- Add one element to a Python `set`, modelled as an insertion-ordered
duplicate-free list. -/
def insertU (acc : List Str) (x : Str) : List Str :=
  if x ∈ acc then acc else acc ++ [x]

/-- `set.update`: add many elements in order. -/
def insertAll (acc : List Str) (xs : List Str) : List Str :=
  xs.foldl insertU acc

/-- `main.py` lines 93-96: the loop of `expandir_termos` over `SINONIMOS`. -/
def expandLoop (qn : Str) : List (Str × List Str) → List Str → List Str
  | [], acc => acc
  | kv :: rest, acc =>
      if strIn kv.1 qn || kv.2.any (fun s => strIn s qn) then
        expandLoop qn rest (insertAll acc (kv.1 :: kv.2))
      else
        expandLoop qn rest acc

/-- `main.py` lines 85-99: `expandir_termos(query)`.  Empty (falsy) query
returns `[]`; otherwise the query is lower-cased and trimmed, seeds the
set, and every synonym row triggered by a substring hit is added whole. -/
def expandir_termos (query : Str) : List Str :=
  if query = [] then []
  else
    let qn := strip (pyLower query)
    expandLoop qn SINONIMOS [qn]

/-- One spaCy pass of `main.py` lines 77-81: every entity labelled
`PERSON` is stripped and added to the `pessoas` set.  An entity is a pair
(text, label). -/
def personPass (acc : List Str) (ents : List (Str × Str)) : List Str :=
  ents.foldl (fun a e => if e.2 = "PERSON".data then insertU a (strip e.1) else a) acc

/-- `main.py` lines 70-83: `detectar_pessoa_spacy(texto)`.  The spaCy
models are parameters `entsEn`, `entsPt` mapping a text to its entity
list.  Both models are ALWAYS run, in order, over the full text. -/
def detectar_pessoa_spacy (entsEn entsPt : Str → List (Str × Str)) (texto : Str) :
    List Str :=
  if texto = [] then []
  else personPass (personPass [] (entsEn texto)) (entsPt texto)

/-- Modelled from the spec claim, for comparison with the source: detect
with the hinted language's model first, running the second model only
when the first pass finds zero PERSON entities. -/
def detectClaimed (first second : Str → List (Str × Str)) (texto : Str) : List Str :=
  if texto = [] then []
  else
    let r1 := personPass [] (first texto)
    if r1 = [] then personPass [] (second texto) else r1

/-- Concrete English-model oracle: always finds the person "Alice". -/
def entsA : Str → List (Str × Str) := fun _ => [("Alice".data, "PERSON".data)]

/-- Concrete Portuguese-model oracle: always finds the person "Bob". -/
def entsB : Str → List (Str × Str) := fun _ => [("Bob".data, "PERSON".data)]

/-- Oracle that never finds an entity. -/
def eNone : Str → List (Str × Str) := fun _ => []

/-! ## The text chunker (`ler_arquivo` lines 414-425, `indexar_transcripts` lines 676-703) -/

/-- `main.py` lines 416-425: the chunking loop of `ler_arquivo`.  The
buffer accumulates `paragraph + "\n"` while `len(buffer) + len(paragraph)`
stays below the budget; on overflow `buffer.strip()` is flushed and the
buffer restarts with the paragraph.  The final non-empty buffer is
flushed stripped. -/
def lerChunkGo (B : Nat) : List Str → Str → List Str
  | [], buf => if buf = [] then [] else [strip buf]
  | p :: ps, buf =>
      if buf.length + p.length < B then lerChunkGo B ps (buf ++ p ++ ['\n'])
      else strip buf :: lerChunkGo B ps (p ++ ['\n'])

/-- The whole chunking pass of `ler_arquivo` starting with an empty buffer. -/
def lerChunks (B : Nat) (paragraphs : List Str) : List Str :=
  lerChunkGo B paragraphs []

/-- Abstraction of the chunk buffer as the list of paragraphs it holds:
the buffer string is `joinNL` of the list. -/
def joinNL (g : List Str) : Str := g.flatMap (fun p => p ++ ['\n'])

/-- Length of the chunk buffer holding paragraph group `g`. -/
def bufLen (g : List Str) : Nat := (g.map (fun p => p.length + 1)).sum

/-- The paragraphs of a group joined by single newlines (what
`buffer.strip()` evaluates to for trimmed non-empty paragraphs). -/
def intNL : List Str → Str
  | [] => []
  | [p] => p
  | p :: ps => p ++ '\n' :: intNL ps

/-- The chunking decision procedure at the paragraph-group level: same
branch condition as `lerChunkGo`, tracking groups instead of buffers. -/
def chunkGroupsGo (B : Nat) : List Str → List Str → List (List Str)
  | [], g => if g = [] then [] else [g]
  | p :: ps, g =>
      if bufLen g + p.length < B then chunkGroupsGo B ps (g ++ [p])
      else g :: chunkGroupsGo B ps [p]

/-- Paragraph groups of a full chunking pass. -/
def chunkGroups (B : Nat) (paragraphs : List Str) : List (List Str) :=
  chunkGroupsGo B paragraphs []

/-! ## `ler_arquivo` (lines 370-579) -/

/-- The shape of the `conteudo` field of a `/files/{id}` response: the
DOCX branch returns a list of chunk strings, every other branch a single
string. -/
inductive Conteudo where
  | str (s : Str)
  | chunks (cs : List Str)
deriving DecidableEq

/-- Python `x.lower()` on a `conteudo` value: succeeds on a string,
raises `AttributeError` on a list (`main.py` line 329 in `smart_search`). -/
def lowerConteudo : Conteudo → Except Unit Str
  | .str s => .ok (pyLower s)
  | .chunks _ => .error ()

/-- The document kinds `ler_arquivo` dispatches on, each carrying the
output of its external decoder: raw DOCX paragraph texts, PDF page texts
(`extract_text() or ""` already applied), decoded TXT bytes, the
processed PPTX text, or an unsupported mime type string. -/
inductive FileKind where
  | docx (paras : List Str)
  | pdf (pages : List Str)
  | txt (bytes : Str)
  | pptx (texto : Str)
  | other (mime : Str)

/-- A downloadable file as `ler_arquivo` sees it. -/
structure VFile where
  nome : Str
  kind : FileKind

/-- `main.py` line 410: `[p.text.strip() for p in doc.paragraphs if p.text.strip()]`. -/
def docxParas (raw : List Str) : List Str :=
  (raw.map strip).filter (fun p => p ≠ [])

/-- `main.py` line 412: placeholder for an unreadable DOCX. -/
def msgDocxVazio : Str := "⚠️ O arquivo DOCX foi encontrado, mas não contém texto legível.".data

/-- `main.py` line 570: placeholder for a file without readable text. -/
def msgSemTexto : Str := "⚠️ O arquivo foi encontrado, mas parece não conter texto legível.".data

/-- `main.py` line 567: the unsupported-format message. -/
def msgUnsupported (mime : Str) : Str :=
  "O tipo de arquivo ".data ++ mime ++ " não é suportado para leitura direta.".data

/-- A `/files/{id}` response restricted to the fields the claims are
about (`total_chunks` is present only on the DOCX branch). -/
structure LerResp where
  nome : Str
  conteudo : Conteudo
  total_chunks : Option Nat

/-- `main.py` lines 569-576: the bottom return of `ler_arquivo` — the
extracted text (or the placeholder when it strips to nothing) truncated
to 150000 characters. -/
def bottomResp (nome : Str) (texto : Str) : LerResp :=
  let t := if strip texto = [] then msgSemTexto else texto
  ⟨nome, .str (t.take 150000), none⟩

/-- `main.py` lines 370-579: `ler_arquivo`, branch by document kind.
The DOCX branch (lines 399-435) chunks the readable paragraphs and
returns the first ten chunks as a list plus `total_chunks`; PDF (444-446)
and TXT (451-452) join/decode into a string; PPTX (457-561) returns its
processed text truncated to 80000 (modelled abstractly: the slide
extraction is an external decoder); anything else falls to the
unsupported-format string.  All the string branches funnel through the
bottom return. -/
def ler_arquivo (f : VFile) : LerResp :=
  match f.kind with
  | .docx raw =>
      let paragraphs := docxParas raw
      if paragraphs = [] then bottomResp f.nome msgDocxVazio
      else
        let cs := lerChunks 5000 paragraphs
        ⟨f.nome, .chunks (cs.take 10), some cs.length⟩
  | .pdf pages => bottomResp f.nome (intNL pages)
  | .txt bytes => bottomResp f.nome bytes
  | .pptx texto => ⟨f.nome, .str (texto.take 80000), none⟩
  | .other mime => bottomResp f.nome (msgUnsupported mime)

/-! ## `smart_search` (lines 302-362) -/

deriving instance DecidableEq for Except

/-- A Drive file as `smart_search.buscar` consumes it: `read` models the
outcome of `ler_arquivo(f["id"])["conteudo"]` — either the content value
or a raised exception. -/
structure DFile where
  id : Nat
  name : Str
  read : Except Unit Conteudo
deriving DecidableEq

/-- `main.py` lines 326-339: the per-file body of `buscar`.  Already-seen
ids are skipped; a failure of the content fetch or of `.lower()` is
caught at the item boundary and the file skipped; the person filter and
the term filter gate appending to `encontrados` and to `ids_vistos`. -/
def buscarStep (pOpt : Option Str) (termos : List Str) (foco : Bool)
    (acc : List DFile × List Nat) (f : DFile) : List DFile × List Nat :=
  if f.id ∈ acc.2 then acc
  else
    match f.read with
    | .error _ => acc
    | .ok c =>
        match lowerConteudo c with
        | .error _ => acc
        | .ok conteudo =>
            if foco && !(strIn (pOpt.getD []) (pyLower f.name))
                && !(strIn (pOpt.getD []) conteudo) then acc
            else if termos.any (fun t => strIn t conteudo) then
              (acc.1 ++ [f], acc.2 ++ [f.id])
            else acc

/-- `main.py` lines 317-340: `buscar(termos_busca, foco_pessoa)`.  The
Drive listing per term is the parameter `lf`; `seen` is the enclosing
`ids_vistos` set, shared between calls. -/
def buscar (lf : Str → List DFile) (pOpt : Option Str) (termos : List Str)
    (foco : Bool) (seen : List Nat) : List DFile × List Nat :=
  termos.foldl (fun acc termo => (lf termo).foldl (buscarStep pOpt termos foco) acc)
    ([], seen)

/-- The response of `/smart_search` restricted to the claim's fields. -/
structure SmartOut where
  pessoa_detectada : Option Str
  busca_expandida : Bool
  arquivos_encontrados : List DFile
  total : Nat
deriving DecidableEq

/-- `main.py` lines 302-359: `smart_search(query)`.  Level 1 (person
scoped) runs only when a person is detected; level 2 (expanded) runs when
level 1 produced nothing — including when no person was detected at all —
and the `busca_expandida` flag is `True if pessoa else False`. -/
def smart_search (lf : Str → List DFile) (entsEn entsPt : Str → List (Str × Str))
    (query : Str) : SmartOut :=
  let termos := expandir_termos query
  let pessoas := detectar_pessoa_spacy entsEn entsPt query
  let pessoa : Option Str := pessoas.head?.map pyLower
  let r1 := match pessoa with
    | some _ => buscar lf pessoa termos true []
    | none => ([], [])
  if r1.1 = [] then
    let r2 := buscar lf pessoa termos false r1.2
    ⟨pessoa, pessoa.isSome, r2.1, r2.1.length⟩
  else
    ⟨pessoa, false, r1.1, r1.1.length⟩

/-- The person `smart_search` scopes on: first detected name, lowered. -/
def personOf (entsEn entsPt : Str → List (Str × Str)) (q : Str) : Option Str :=
  (detectar_pessoa_spacy entsEn entsPt q).head?.map pyLower

/-- The level-1 (person-scoped) run of `buscar` inside `smart_search`. -/
def scopedRun (lf : Str → List DFile) (entsEn entsPt : Str → List (Str × Str))
    (q : Str) : List DFile × List Nat :=
  buscar lf (personOf entsEn entsPt q) (expandir_termos q) true []

/-- Modelled from the spec claim, for comparison with the source: the
`busca_expandida` flag reports which tier produced the returned results —
true exactly when the EXPANDED tier did (no person detected, or the
person-scoped tier yielded zero results). -/
def flagReportsExpandedTier (lf : Str → List DFile)
    (entsEn entsPt : Str → List (Str × Str)) (q : Str) : Prop :=
  ((smart_search lf entsEn entsPt q).busca_expandida = true) ↔
    (personOf entsEn entsPt q = none ∨ (scopedRun lf entsEn entsPt q).1 = [])

/-- Concrete Drive listing: the term "data" matches one readable file
whose content contains the term. -/
def lfC : Str → List DFile := fun t =>
  if t = "data".data then [⟨0, "data notes".data, .ok (.str "data report".data)⟩]
  else []

/-- `Except.isOk` under a local name (avoids any dependence on library
version). -/
def exOk : Except Unit α → Bool
  | .ok _ => true
  | .error _ => false

/-- Readability for `buscar`: the content fetch succeeds AND `.lower()`
succeeds on the fetched `conteudo` (i.e. it is a string, not a list). -/
def dfLowerOk (f : DFile) : Bool :=
  exOk (f.read.bind lowerConteudo)

/-! ## `indexar_transcripts` (lines 581-741) -/

/-- Embedding vectors: fixed-length float arrays modelled over ℚ. -/
abbrev Vec := List ℚ

/-- The mime types the indexing loop dispatches on (line 645-654):
Google Docs are exported, DOCX downloaded, everything else skipped. -/
inductive TMime where
  | gdoc
  | docx
  | other

/-- A candidate file of the indexing run.  `fetch` models
download-or-export followed by `docx.Document` paragraph extraction:
the raw paragraph texts, or a per-file failure (caught at line 707). -/
structure TFile where
  nome : Str
  file_id : Str
  mime : TMime
  fetch : Except Unit (List Str)

/-- One metadata entry of `index_cache/transcripts_meta.json`
(lines 687-691). -/
structure Meta where
  arquivo : Str
  file_id : Str
  trecho : Str
deriving DecidableEq

/-- `main.py` lines 687-691: the metadata appended for one chunk:
file name, file id and `buffer[:300] + "..."`. -/
def mkMeta (f : TFile) (buf : Str) : Meta :=
  ⟨f.nome, f.file_id, buf.take 300 ++ "...".data⟩

/-- `main.py` lines 676-703: the chunk-and-embed loop of one file.  The
same buffer discipline as `ler_arquivo`, but each flush appends one
embedding to `embeddings_list` AND one entry to `metadados` (raw buffer,
no strip). -/
def indexLoop (encode : Str → Vec) (f : TFile) : List Str → Str → List Vec × List Meta
  | [], buf => if buf = [] then ([], []) else ([encode buf], [mkMeta f buf])
  | p :: ps, buf =>
      if buf.length + p.length < 5000 then indexLoop encode f ps (buf ++ p ++ ['\n'])
      else
        let r := indexLoop encode f ps (p ++ ['\n'])
        (encode buf :: r.1, mkMeta f buf :: r.2)

/-- The raw flushed buffers of the indexing chunk loop (each one is a
newline-terminated run of paragraphs). -/
def chunksRaw : List Str → Str → List Str
  | [], buf => if buf = [] then [] else [buf]
  | p :: ps, buf =>
      if buf.length + p.length < 5000 then chunksRaw ps (buf ++ p ++ ['\n'])
      else buf :: chunksRaw ps (p ++ ['\n'])

/-- `main.py` lines 637-709: processing of one candidate file.
Unsupported mimes are skipped (line 653), per-file failures are caught
and skipped (line 707), empty documents are skipped (line 672), and the
rest is chunked and embedded. -/
def processFile (encode : Str → Vec) (f : TFile) : List Vec × List Meta :=
  match f.mime with
  | .other => ([], [])
  | _ =>
      match f.fetch with
      | .error _ => ([], [])
      | .ok raw =>
          let paragraphs := docxParas raw
          if paragraphs = [] then ([], [])
          else indexLoop encode f paragraphs []

/-- `main.py` lines 631-725: the whole indexing run over the candidate
list, producing `embeddings_list` and `metadados` by in-order appends. -/
def indexar_transcripts (encode : Str → Vec) (files : List TFile) :
    List Vec × List Meta :=
  files.foldr
    (fun f acc => ((processFile encode f).1 ++ acc.1, (processFile encode f).2 ++ acc.2))
    ([], [])

/-- A FAISS `IndexFlatL2`: the stored vector rows, in insertion order. -/
structure FaissIndex where
  vectors : List Vec

/-- `index.add(embeddings)` (line 718). -/
def faissAdd (idx : FaissIndex) (vs : List Vec) : FaissIndex :=
  ⟨idx.vectors ++ vs⟩

/-- `index.ntotal`: the number of stored vectors. -/
def FaissIndex.size (idx : FaissIndex) : Nat := idx.vectors.length

/-! ## `search_transcripts` (lines 243-299) -/

/-- Squared L2 distance, what `IndexFlatL2.search` returns. -/
def sqDist (u v : Vec) : ℚ :=
  ((u.zip v).map (fun x => (x.1 - x.2) ^ 2)).sum

/-- The scored candidate list of a flat index scan: each stored vector
paired with its (squared) distance to the query, indices from `i0`. -/
def scoredFrom (q : Vec) : List Vec → Int → List (Int × ℚ)
  | [], _ => []
  | v :: vs, i => (i, sqDist q v) :: scoredFrom q vs (i + 1)

/-- Sorting key of a FAISS result row: ascending distance. -/
def distLE (a b : Int × ℚ) : Prop := a.2 ≤ b.2

instance : DecidableRel distLE := fun a b => inferInstanceAs (Decidable (a.2 ≤ b.2))

instance : IsTotal (Int × ℚ) distLE := ⟨fun a b => le_total a.2 b.2⟩

instance : IsTrans (Int × ℚ) distLE := ⟨fun _ _ _ h h' => le_trans h h'⟩

/-- The sentinel distance FAISS pads missing neighbours with (FLT_MAX in
the C library). -/
def fltMax : ℚ := 2 ^ 128

/-- `index.search(query, k)` on a flat L2 index: the `k` nearest stored
vectors by (squared) L2 distance, ascending, padded with id `-1` when
fewer than `k` vectors are stored. -/
def faissSearch (vecs : List Vec) (q : Vec) (k : Nat) : List (Int × ℚ) :=
  (List.insertionSort distLE (scoredFrom q vecs 0)).take k
    ++ List.replicate (k - vecs.length) ((-1 : Int), fltMax)

/-- Python `l[i]` with negative-index semantics, as `metadados[idx]`
behaves at line 281: a negative index counts from the end of the list,
and `none` stands for an out-of-range access, i.e. `IndexError`. -/
def pyGet (l : List α) (i : Int) : Option α :=
  let j := if 0 ≤ i then i else (l.length : Int) + i
  if 0 ≤ j then l.get? j.toNat else none

/-- Total variant of `pyGet` used to state results (the claims certify
validity separately). -/
def metaD (l : List Meta) (i : Int) : Meta :=
  (pyGet l i).getD ⟨[], [], []⟩

/-- One result row of `/search_transcripts` (lines 282-287). -/
structure SRes where
  arquivo : Str
  file_id : Str
  trecho : Str
  similaridade : ℚ
deriving DecidableEq

/-- `main.py` lines 278-287: the result loop.  Each returned (index,
distance) pair with `idx < len(metadados)` is looked up in the parallel
metadata array and scored `1 - dist / 2`; pairs failing the guard are
skipped.  A pair that passes the guard but whose lookup is out of range
— e.g. the FAISS padding index `-1` when `metadados` is empty, since
`-1 < len(metadados)` holds in Python — raises `IndexError`, aborting
the loop (the `.error` case). -/
def searchResults (metadados : List Meta) : List (Int × ℚ) → Except Unit (List SRes)
  | [] => .ok []
  | p :: ps =>
      if p.1 < (metadados.length : Int) then
        match pyGet metadados p.1 with
        | none => .error ()
        | some m =>
            (searchResults metadados ps).map
              (fun rest => ⟨m.arquivo, m.file_id, m.trecho, 1 - p.2 / 2⟩ :: rest)
      else searchResults metadados ps

/-- The persisted index state: `index_cache/transcripts.index` and
`index_cache/transcripts_meta.json`, each possibly absent. -/
structure IndexState where
  indexFile : Option (List Vec)
  metaFile : Option (List Meta)

/-- The exceptions relevant to the endpoint: `fastapi.HTTPException`
with a status code and detail string, and Python's `IndexError` from a
bad list access. -/
inductive Exc where
  | http (status : Nat) (detail : Str)
  | indexError
deriving DecidableEq

/-- Python `str(e)`: Starlette's `HTTPException.__str__` is
`f"{status_code}: {detail}"`; `str(IndexError(...))` is its message. -/
def excStr : Exc → Str
  | .http s d => (Nat.repr s).data ++ ": ".data ++ d
  | .indexError => "list index out of range".data

/-- `main.py` line 262: the missing-index detail. -/
def msg404 : Str := "O índice FAISS ainda não foi criado. Execute /index_transcripts primeiro.".data

/-- `main.py` line 290: the zero-match message. -/
def msgNoResults : Str := "Nenhum trecho relevante encontrado para essa busca.".data

/-- `main.py` line 299: the prefix of the generic error detail. -/
def msgSearchErr : Str := "Erro ao buscar no índice de transcripts: ".data

/-- The two successful response shapes of `/search_transcripts`
(lines 289-296). -/
inductive SOut where
  | mensagem (m : Str)
  | resultados (query : Str) (total : Nat) (items : List SRes)
deriving DecidableEq

/-- `main.py` lines 254-296: the body of the `try` block of
`search_transcripts` — raise 404 when either artifact is absent, else
search; an `IndexError` in the result loop propagates, and otherwise the
answer is a message when zero rows survive, the result rows if any do. -/
def searchTranscriptsBody (encode : Str → Vec) (st : IndexState) (query : Str)
    (top_k : Nat) : Except Exc SOut :=
  match st.indexFile, st.metaFile with
  | some vecs, some metadados =>
      match searchResults metadados (faissSearch vecs (encode query) top_k) with
      | .error _ => .error .indexError
      | .ok resultados =>
          if resultados = [] then .ok (.mensagem msgNoResults)
          else .ok (.resultados query resultados.length resultados)
  | _, _ => .error (.http 404 msg404)

/-- `main.py` lines 254-299: the whole endpoint.  The enclosing
`except Exception` catches EVERYTHING raised in the body — including the
endpoint's own `HTTPException(404)` — and re-raises it as a 500 whose
detail embeds `str(e)`. -/
def search_transcripts (encode : Str → Vec) (st : IndexState) (query : Str)
    (top_k : Nat) : Except Exc SOut :=
  match searchTranscriptsBody encode st query top_k with
  | .ok r => .ok r
  | .error e => .error (.http 500 (msgSearchErr ++ excStr e))

/-- The index state in which neither artifact has ever been written. -/
def stEmpty : IndexState := ⟨none, none⟩

/-! ## `indexar_drive` (lines 744-801) -/

/-- A Drive item as the tree walk sees it. -/
structure DItem where
  id : Nat
  name : Str
  isFolder : Bool
deriving DecidableEq

/-- `main.py` line 767: `f"{caminho_atual}/{item['name']}".strip("/")`. -/
def caminhoItem (caminhoAtual nome : Str) : Str :=
  pyStripChars ['/'] (caminhoAtual ++ '/' :: nome)

/-- `main.py` lines 756-777: `listar_conteudo(pasta_id, caminho_atual)`.
The parameter `children` models the fully page-drained listing
`q = "'pid' in parents and trashed=false"` (the `pageToken` loop).  Every
item is appended with its materialized path and folders are recursed
into depth-first, at the point of encounter.  `fuel` bounds the recursion
depth (the source recurses unboundedly; on an acyclic hierarchy of depth
below `fuel` the two agree). -/
def listar_conteudo (children : Nat → List DItem) :
    Nat → Nat → Str → List (DItem × Str)
  | 0, _, _ => []
  | fuel + 1, pastaId, caminhoAtual =>
      (children pastaId).flatMap (fun item =>
        (item, caminhoItem caminhoAtual item.name) ::
          (if item.isFolder then
            listar_conteudo children fuel item.id (caminhoItem caminhoAtual item.name)
          else []))

/-- The persisted `drive_index.json` snapshot (lines 787-792), timestamp
abstracted away. -/
structure DriveSnapshot where
  total_itens : Nat
  arquivos : List (DItem × Str)

/-- `main.py` lines 744-798: `indexar_drive` — walk from the root and
persist the snapshot with `total_itens = len(arquivos_indexados)`. -/
def indexar_drive (children : Nat → List DItem) (fuel : Nat) (rootId : Nat) :
    DriveSnapshot :=
  let arquivos := listar_conteudo children fuel rootId []
  ⟨arquivos.length, arquivos⟩

/-- A remote hierarchy that is a genuine tree: a non-trashed item with a
single parent chain.  Folders carry their children. -/
inductive DTree where
  | leaf (id : Nat) (name : Str)
  | node (id : Nat) (name : Str) (children : List DTree)

/-- The `DItem` record of a tree node. -/
def itemOfTree : DTree → DItem
  | .leaf i n => ⟨i, n, false⟩
  | .node i n _ => ⟨i, n, true⟩

mutual

/-- All items of a tree, preorder. -/
def tItems : DTree → List DItem
  | .leaf i n => [⟨i, n, false⟩]
  | .node i n cs => ⟨i, n, true⟩ :: tsItems cs

/-- All items of a forest, preorder. -/
def tsItems : List DTree → List DItem
  | [] => []
  | t :: ts => tItems t ++ tsItems ts

end

mutual

/-- The folder → children-items table of a tree. -/
def tFolderTable : DTree → List (Nat × List DItem)
  | .leaf _ _ => []
  | .node i _ cs => (i, cs.map itemOfTree) :: tsFolderTable cs

/-- The folder → children-items table of a forest. -/
def tsFolderTable : List DTree → List (Nat × List DItem)
  | [] => []
  | t :: ts => tFolderTable t ++ tsFolderTable ts

end

mutual

/-- Folder-nesting depth of a tree. -/
def tDepth : DTree → Nat
  | .leaf _ _ => 0
  | .node _ _ cs => tsDepth cs + 1

/-- Folder-nesting depth of a forest. -/
def tsDepth : List DTree → Nat
  | [] => 0
  | t :: ts => max (tDepth t) (tsDepth ts)

end

mutual

/-- The expected walk of one tree under a parent path: the item itself,
then (for folders) the walk of the children under the item's path. -/
def tWalk : DTree → Str → List (DItem × Str)
  | .leaf i n, parent => [(⟨i, n, false⟩, caminhoItem parent n)]
  | .node i n cs, parent =>
      (⟨i, n, true⟩, caminhoItem parent n) :: tsWalk cs (caminhoItem parent n)

/-- The expected walk of a forest under a parent path. -/
def tsWalk : List DTree → Str → List (DItem × Str)
  | [], _ => []
  | t :: ts, p => tWalk t p ++ tsWalk ts p

end

/-- The children function a tree-shaped Drive presents: lookup in the
folder table, with the root folder `rootId` containing the forest `ts`. -/
def cfOf (rootId : Nat) (ts : List DTree) : Nat → List DItem :=
  fun pid => (((rootId, ts.map itemOfTree) :: tsFolderTable ts).lookup pid).getD []

/-- A diamond-shaped DAG: folders 1 and 2 under the root both contain
the same (non-trashed) file 3. -/
def cfDiamond : Nat → List DItem := fun pid =>
  if pid = 0 then [⟨1, "a".data, true⟩, ⟨2, "b".data, true⟩]
  else if pid = 1 then [⟨3, "f".data, false⟩]
  else if pid = 2 then [⟨3, "f".data, false⟩]
  else []

/-- A small genuine tree: root contains folder 1 (holding file 3) and
file 2. -/
def tsDemo : List DTree :=
  [DTree.node 1 "a".data [DTree.leaf 3 "f".data], DTree.leaf 2 "g".data]

/-!
# Theorems

Helper lemmas first, then one theorem per claim (witnesses and
counterexamples beside their claim's theorem).
-/

theorem mem_insertU {acc : List Str} {y x : Str} :
    x ∈ insertU acc y ↔ x ∈ acc ∨ x = y := by
  unfold insertU
  split
  · rename_i h
    constructor
    · exact fun hx => Or.inl hx
    · rintro (hx | rfl)
      · exact hx
      · exact h
  · simp

theorem nodup_insertU {acc : List Str} {y : Str} (h : acc.Nodup) :
    (insertU acc y).Nodup := by
  unfold insertU
  split
  · exact h
  · rename_i hy
    rw [List.nodup_append]
    exact ⟨h, List.nodup_singleton y, by simpa using fun hmem => hy hmem⟩

theorem mem_insertAll {xs : List Str} {acc : List Str} {x : Str} :
    x ∈ insertAll acc xs ↔ x ∈ acc ∨ x ∈ xs := by
  induction xs generalizing acc with
  | nil => simp [insertAll]
  | cons y ys ih =>
      show x ∈ insertAll (insertU acc y) ys ↔ _
      rw [ih, mem_insertU]
      simp only [List.mem_cons]
      tauto

theorem nodup_insertAll {xs : List Str} {acc : List Str} (h : acc.Nodup) :
    (insertAll acc xs).Nodup := by
  induction xs generalizing acc with
  | nil => exact h
  | cons y ys ih => exact ih (nodup_insertU h)

theorem expandLoop_mono {qn : Str} {table : List (Str × List Str)} {acc : List Str}
    {x : Str} (h : x ∈ acc) : x ∈ expandLoop qn table acc := by
  induction table generalizing acc with
  | nil => exact h
  | cons kv rest ih =>
      unfold expandLoop
      split
      · exact ih (mem_insertAll.mpr (Or.inl h))
      · exact ih h

theorem expandLoop_nodup {qn : Str} {table : List (Str × List Str)} {acc : List Str}
    (h : acc.Nodup) : (expandLoop qn table acc).Nodup := by
  induction table generalizing acc with
  | nil => exact h
  | cons kv rest ih =>
      unfold expandLoop
      split
      · exact ih (nodup_insertAll h)
      · exact ih h

theorem expandLoop_trigger {qn : Str} {table : List (Str × List Str)} {acc : List Str}
    {kv : Str × List Str} (hkv : kv ∈ table)
    (hcond : (strIn kv.1 qn || kv.2.any (fun s => strIn s qn)) = true) :
    kv.1 ∈ expandLoop qn table acc ∧ ∀ s ∈ kv.2, s ∈ expandLoop qn table acc := by
  induction table generalizing acc with
  | nil => cases hkv
  | cons kv' rest ih =>
      rcases List.mem_cons.mp hkv with heq | hmem
      · subst heq
        unfold expandLoop
        rw [if_pos hcond]
        constructor
        · exact expandLoop_mono (mem_insertAll.mpr (Or.inr (List.mem_cons_self _ _)))
        · exact fun s hs =>
            expandLoop_mono (mem_insertAll.mpr (Or.inr (List.mem_cons_of_mem _ hs)))
      · unfold expandLoop
        split
        · exact ih hmem
        · exact ih hmem

/-- C7: for every non-empty query, `expandir_termos` contains the
lower-cased trimmed query; the empty query yields the empty list; the
result has no duplicates; and every synonym row of `SINONIMOS` whose
canonical term or synonym occurs as a substring of the normalized query
contributes the canonical term and all its synonyms. -/
theorem expandir_termos_contract (q : Str) (hq : q ≠ []) :
    expandir_termos [] = [] ∧
    strip (pyLower q) ∈ expandir_termos q ∧
    (expandir_termos q).Nodup ∧
    ∀ kv ∈ SINONIMOS,
      (strIn kv.1 (strip (pyLower q)) || kv.2.any (fun s => strIn s (strip (pyLower q)))) = true →
      kv.1 ∈ expandir_termos q ∧ ∀ s ∈ kv.2, s ∈ expandir_termos q := by
  have hunf : expandir_termos q = expandLoop (strip (pyLower q)) SINONIMOS [strip (pyLower q)] := by
    unfold expandir_termos
    rw [if_neg hq]
  refine ⟨rfl, ?_, ?_, ?_⟩
  · rw [hunf]
    exact expandLoop_mono (List.mem_singleton.mpr rfl)
  · rw [hunf]
    exact expandLoop_nodup (List.nodup_singleton _)
  · intro kv hkv hcond
    rw [hunf]
    exact expandLoop_trigger hkv hcond

/-- C7 witness: the synonym-hit scenario of the spec at the concrete
query "data governance". -/
theorem expandir_termos_contract_witness :
    ("data governance".data ≠ ([] : Str)) ∧
    "data governance".data ∈ expandir_termos "data governance".data ∧
    "governança de dados".data ∈ expandir_termos "data governance".data ∧
    "gestão de dados".data ∈ expandir_termos "data governance".data ∧
    "política de dados".data ∈ expandir_termos "data governance".data ∧
    "data management".data ∈ expandir_termos "data governance".data := by
  have h := expandir_termos_contract ("data governance".data) (by decide)
  have hn : strip (pyLower "data governance".data) = "data governance".data := by decide
  have hrow := h.2.2.2 ("governança de dados".data,
      ["data governance".data, "gestão de dados".data, "política de dados".data,
       "data management".data]) (by decide) (by rw [hn]; decide)
  refine ⟨by decide, ?_, hrow.1, ?_, ?_, ?_⟩
  · have := h.2.1
    rwa [hn] at this
  · exact hrow.2 _ (by decide)
  · exact hrow.2 _ (by decide)
  · exact hrow.2 _ (by decide)

theorem mem_personPass {ents : List (Str × Str)} {acc : List Str} {x : Str} :
    x ∈ personPass acc ents ↔
      x ∈ acc ∨ ∃ e ∈ ents, e.2 = "PERSON".data ∧ x = strip e.1 := by
  induction ents generalizing acc with
  | nil => simp [personPass]
  | cons e es ih =>
      show x ∈ personPass (if e.2 = "PERSON".data then insertU acc (strip e.1) else acc) es ↔ _
      rw [ih]
      split
      · rename_i hlab
        rw [mem_insertU]
        simp only [List.mem_cons]
        constructor
        · rintro ((hx | rfl) | ⟨e', he', hl, hx⟩)
          · exact Or.inl hx
          · exact Or.inr ⟨e, Or.inl rfl, hlab, rfl⟩
          · exact Or.inr ⟨e', Or.inr he', hl, hx⟩
        · rintro (hx | ⟨e', (rfl | he'), hl, hx⟩)
          · exact Or.inl (Or.inl hx)
          · exact Or.inl (Or.inr hx)
          · exact Or.inr ⟨e', he', hl, hx⟩
      · rename_i hlab
        simp only [List.mem_cons]
        constructor
        · rintro (hx | ⟨e', he', hl, hx⟩)
          · exact Or.inl hx
          · exact Or.inr ⟨e', Or.inr he', hl, hx⟩
        · rintro (hx | ⟨e', (rfl | he'), hl, hx⟩)
          · exact Or.inl hx
          · exact absurd hl hlab
          · exact Or.inr ⟨e', he', hl, hx⟩

theorem nodup_personPass {ents : List (Str × Str)} {acc : List Str}
    (h : acc.Nodup) : (personPass acc ents).Nodup := by
  induction ents generalizing acc with
  | nil => exact h
  | cons e es ih =>
      show (personPass (if e.2 = "PERSON".data then insertU acc (strip e.1) else acc) es).Nodup
      split
      · exact ih (nodup_insertU h)
      · exact ih h

/-- C4 counterexample: with an English-model oracle that finds "Alice"
and a Portuguese-model oracle that finds "Bob", the first pass already
finds a PERSON, yet the second model's result "Bob" is still collected —
so the source differs from the claimed hint-then-fallback contract under
either ordering of the two models. -/
theorem detectar_pessoa_runs_both_models :
    personPass [] (entsA "hello".data) ≠ [] ∧
    "Bob".data ∈ detectar_pessoa_spacy entsA entsB "hello".data ∧
    detectar_pessoa_spacy entsA entsB "hello".data ≠ detectClaimed entsA entsB "hello".data ∧
    detectar_pessoa_spacy entsA entsB "hello".data ≠ detectClaimed entsB entsA "hello".data := by
  decide

/-- C4 amended: for every non-empty input, `detectar_pessoa_spacy` runs
BOTH language models unconditionally (the models are loaded eagerly at
module import, not lazily) and returns exactly the trimmed, deduplicated
union of the PERSON entities found by the two passes; empty input yields
the empty list. -/
theorem detectar_pessoa_union_contract (entsEn entsPt : Str → List (Str × Str))
    (texto : Str) (ht : texto ≠ []) :
    detectar_pessoa_spacy entsEn entsPt [] = [] ∧
    (detectar_pessoa_spacy entsEn entsPt texto).Nodup ∧
    ∀ x, x ∈ detectar_pessoa_spacy entsEn entsPt texto ↔
      ((∃ e ∈ entsEn texto, e.2 = "PERSON".data ∧ x = strip e.1) ∨
       (∃ e ∈ entsPt texto, e.2 = "PERSON".data ∧ x = strip e.1)) := by
  have hunf : detectar_pessoa_spacy entsEn entsPt texto
      = personPass (personPass [] (entsEn texto)) (entsPt texto) := by
    unfold detectar_pessoa_spacy
    rw [if_neg ht]
  refine ⟨rfl, ?_, ?_⟩
  · rw [hunf]
    exact nodup_personPass (nodup_personPass List.nodup_nil)
  · intro x
    rw [hunf, mem_personPass, mem_personPass]
    simp only [List.not_mem_nil, false_or]

/-- C4 amended witness at the concrete oracles: both models' findings
appear, and the empty input yields the empty list. -/
theorem detectar_pessoa_union_contract_witness :
    "Alice".data ∈ detectar_pessoa_spacy entsA entsB "hello".data ∧
    detectar_pessoa_spacy entsA entsB [] = [] := by
  have h := detectar_pessoa_union_contract entsA entsB "hello".data (by decide)
  refine ⟨(h.2.2 "Alice".data).mpr ?_, h.1⟩
  exact Or.inl ⟨("Alice".data, "PERSON".data), by decide, rfl, by decide⟩

theorem stripP_eq_self {p : Char → Bool} {s : Str} (h : stripP p s = s) :
    s.dropWhile p = s ∧ s.reverse.dropWhile p = s.reverse := by
  have h1 : s.dropWhile p <:+ s := List.dropWhile_suffix p
  have h2 : (s.dropWhile p).reverse.dropWhile p <:+ (s.dropWhile p).reverse :=
    List.dropWhile_suffix p
  have hb : (s.dropWhile p).reverse.dropWhile p = s.reverse := by
    have := congrArg List.reverse h
    simpa [stripP] using this
  have hlb : ((s.dropWhile p).reverse.dropWhile p).length = s.length := by
    rw [hb, List.length_reverse]
  have hle1 : ((s.dropWhile p).reverse.dropWhile p).length ≤ (s.dropWhile p).length := by
    simpa using h2.length_le
  have hle2 : (s.dropWhile p).length ≤ s.length := h1.length_le
  have ha : s.dropWhile p = s := h1.eq_of_length (by omega)
  rw [ha] at hb
  exact ⟨ha, hb⟩

theorem head_false_of_dropWhile_eq {p : Char → Bool} {c : Char} {t : Str}
    (h : (c :: t).dropWhile p = c :: t) : p c = false := by
  by_contra hc
  rw [Bool.not_eq_false] at hc
  rw [List.dropWhile_cons, if_pos hc] at h
  have hle : (t.dropWhile p).length ≤ t.length := (List.dropWhile_suffix p).length_le
  rw [h] at hle
  simp at hle

theorem dropWhile_cons_false {p : Char → Bool} {c : Char} {t : Str} (h : p c = false) :
    (c :: t).dropWhile p = c :: t := by
  rw [List.dropWhile_cons, h]
  simp

theorem joinNL_append1 (g : List Str) (q : Str) :
    joinNL (g ++ [q]) = joinNL g ++ (q ++ ['\n']) := by
  simp [joinNL]

theorem joinNL_nil_iff (g : List Str) : joinNL g = [] ↔ g = [] := by
  cases g <;> simp [joinNL]

theorem len_joinNL (g : List Str) : (joinNL g).length = bufLen g := by
  induction g with
  | nil => rfl
  | cons q g ih => simp [joinNL, bufLen] at ih ⊢; omega

theorem intNL_cons2 (q r : Str) (gs : List Str) :
    intNL (q :: r :: gs) = q ++ '\n' :: intNL (r :: gs) := by
  rfl

theorem intNL_concat (gs : List Str) (q : Str) :
    intNL (gs ++ [q]) = joinNL gs ++ q := by
  induction gs with
  | nil => rfl
  | cons r gs ih =>
      cases gs with
      | nil => simp [intNL, joinNL]
      | cons r' gs' =>
          rw [List.cons_append, List.cons_append, intNL_cons2]
          rw [show r' :: (gs' ++ [q]) = (r' :: gs') ++ [q] from rfl, ih]
          simp [joinNL, List.append_assoc]

theorem strip_joinNL {g : List Str} (hg : ∀ q ∈ g, q ≠ [] ∧ strip q = q) :
    strip (joinNL g) = intNL g := by
  cases g with
  | nil => rfl
  | cons p0 rest =>
      obtain ⟨hp0ne, hp0s⟩ := hg p0 (List.mem_cons_self _ _)
      obtain ⟨c, t, hp0⟩ : ∃ c t, p0 = c :: t := by
        cases p0 with
        | nil => exact absurd rfl hp0ne
        | cons c t => exact ⟨c, t, rfl⟩
      have hfront : (joinNL (p0 :: rest)).dropWhile (fun x => wsChars.contains x)
          = joinNL (p0 :: rest) := by
        have hdw : p0.dropWhile (fun x => wsChars.contains x) = p0 :=
          (stripP_eq_self hp0s).1
        rw [hp0] at hdw
        have hc : (fun x => wsChars.contains x) c = false := head_false_of_dropWhile_eq hdw
        show ((p0 ++ ['\n']) ++ joinNL rest).dropWhile _ = (p0 ++ ['\n']) ++ joinNL rest
        rw [hp0]
        exact dropWhile_cons_false hc
      obtain ⟨gs, q, hconc⟩ : ∃ gs q, p0 :: rest = gs ++ [q] := by
        rcases List.eq_nil_or_concat (p0 :: rest) with h | ⟨L, b, h⟩
        · cases h
        · exact ⟨L, b, by simpa [List.concat_eq_append] using h⟩
      obtain ⟨hqne, hqs⟩ := hg q (by rw [hconc]; simp)
      obtain ⟨d, u, hqr⟩ : ∃ d u, q.reverse = d :: u := by
        cases hq : q.reverse with
        | nil => exact absurd (by simpa using congrArg List.reverse hq) hqne
        | cons d u => exact ⟨d, u, rfl⟩
      have hdw : q.reverse.dropWhile (fun x => wsChars.contains x) = q.reverse :=
        (stripP_eq_self hqs).2
      have hd : (fun x => wsChars.contains x) d = false := by
        rw [hqr] at hdw
        exact head_false_of_dropWhile_eq hdw
      have hback : ((joinNL (p0 :: rest)).reverse).dropWhile (fun x => wsChars.contains x)
          = q.reverse ++ (joinNL gs).reverse := by
        rw [hconc, joinNL_append1]
        rw [List.reverse_append, List.reverse_append]
        show (('\n' :: q.reverse) ++ (joinNL gs).reverse).dropWhile _ = _
        rw [List.cons_append, List.dropWhile_cons,
          if_pos (show wsChars.contains '\n' = true by decide)]
        rw [hqr, List.cons_append, dropWhile_cons_false hd]
      have hstep : strip (joinNL (p0 :: rest))
          = ((joinNL (p0 :: rest)).reverse.dropWhile (fun x => wsChars.contains x)).reverse := by
        unfold strip pyStripChars stripP
        rw [hfront]
      rw [hstep, hback, List.reverse_append, List.reverse_reverse, List.reverse_reverse]
      rw [hconc, intNL_concat]

theorem lerChunkGo_groups (B : Nat) (ps : List Str) :
    ∀ g : List Str, lerChunkGo B ps (joinNL g)
      = (chunkGroupsGo B ps g).map (fun h => strip (joinNL h)) := by
  induction ps with
  | nil =>
      intro g
      show (if joinNL g = [] then [] else [strip (joinNL g)]) = _
      by_cases hg : g = []
      · rw [if_pos (by rw [hg]; rfl)]
        rw [show chunkGroupsGo B [] g = [] from by rw [hg]; rfl]
        rfl
      · rw [if_neg (fun h => hg ((joinNL_nil_iff g).mp h))]
        rw [show chunkGroupsGo B [] g = [g] from by
          show (if g = [] then [] else [g]) = [g]
          rw [if_neg hg]]
        rfl
  | cons p ps ih =>
      intro g
      show (if (joinNL g).length + p.length < B then _ else _) = _
      rw [len_joinNL]
      by_cases hc : bufLen g + p.length < B
      · rw [if_pos hc]
        rw [show chunkGroupsGo B (p :: ps) g = chunkGroupsGo B ps (g ++ [p]) from by
          show (if bufLen g + p.length < B then _ else _) = _
          rw [if_pos hc]]
        have : joinNL g ++ p ++ ['\n'] = joinNL (g ++ [p]) := by
          rw [joinNL_append1, List.append_assoc]
        rw [this, ih]
      · rw [if_neg hc]
        rw [show chunkGroupsGo B (p :: ps) g = g :: chunkGroupsGo B ps [p] from by
          show (if bufLen g + p.length < B then _ else _) = _
          rw [if_neg hc]]
        have : p ++ ['\n'] = joinNL [p] := by simp [joinNL]
        rw [this, ih]
        rfl

theorem chunkGroupsGo_flatten (B : Nat) (ps : List Str) :
    ∀ g : List Str, (chunkGroupsGo B ps g).flatten = g ++ ps := by
  induction ps with
  | nil =>
      intro g
      show (if g = [] then ([] : List (List Str)) else [g]).flatten = g ++ []
      by_cases hg : g = []
      · rw [if_pos hg, hg]
        rfl
      · rw [if_neg hg]
        simp
  | cons p ps ih =>
      intro g
      by_cases hc : bufLen g + p.length < B
      · rw [show chunkGroupsGo B (p :: ps) g = chunkGroupsGo B ps (g ++ [p]) from by
          show (if bufLen g + p.length < B then _ else _) = _
          rw [if_pos hc]]
        rw [ih]
        simp
      · rw [show chunkGroupsGo B (p :: ps) g = g :: chunkGroupsGo B ps [p] from by
          show (if bufLen g + p.length < B then _ else _) = _
          rw [if_neg hc]]
        rw [List.flatten_cons, ih]
        simp

theorem bufLen_append1 (g : List Str) (p : Str) :
    bufLen (g ++ [p]) = bufLen g + (p.length + 1) := by
  simp [bufLen]

theorem len_intNL_succ {g : List Str} (hg : g ≠ []) :
    (intNL g).length + 1 = bufLen g := by
  induction g with
  | nil => exact absurd rfl hg
  | cons p rest ih =>
      cases rest with
      | nil => simp [intNL, bufLen]
      | cons r rest' =>
          rw [intNL_cons2]
          have := ih (by simp)
          simp only [bufLen, List.map_cons, List.sum_cons] at this ⊢
          simp only [List.length_append, List.length_cons]
          omega

theorem chunkGroupsGo_good (B : Nat) (ps : List Str) :
    ∀ g : List Str, (g = [] ∨ (∃ p, g = [p]) ∨ bufLen g ≤ B) →
      ∀ h ∈ chunkGroupsGo B ps g,
        (intNL h).length ≤ B ∨ ∃ p, h = [p] ∧ B < p.length := by
  have flushGood : ∀ g : List Str, (g = [] ∨ (∃ p, g = [p]) ∨ bufLen g ≤ B) →
      (intNL g).length ≤ B ∨ ∃ p, g = [p] ∧ B < p.length := by
    rintro g (rfl | ⟨p, rfl⟩ | hb)
    · exact Or.inl (by simp [intNL])
    · rcases le_or_lt p.length B with h | h
      · exact Or.inl (by simpa [intNL] using h)
      · exact Or.inr ⟨p, rfl, h⟩
    · rcases List.eq_nil_or_concat g with rfl | ⟨L, b, rfl⟩
      · exact Or.inl (by simp [intNL])
      · have := len_intNL_succ (g := L.concat b) (by simp)
        exact Or.inl (by omega)
  induction ps with
  | nil =>
      intro g hinv h hh
      show _ ∨ _
      by_cases hg : g = []
      · rw [show chunkGroupsGo B [] g = [] from by
          show (if g = [] then _ else _) = _
          rw [if_pos hg]] at hh
        cases hh
      · rw [show chunkGroupsGo B [] g = [g] from by
          show (if g = [] then _ else _) = _
          rw [if_neg hg]] at hh
        rw [List.mem_singleton.mp hh]
        exact flushGood g hinv
  | cons p ps ih =>
      intro g hinv h hh
      by_cases hc : bufLen g + p.length < B
      · rw [show chunkGroupsGo B (p :: ps) g = chunkGroupsGo B ps (g ++ [p]) from by
          show (if bufLen g + p.length < B then _ else _) = _
          rw [if_pos hc]] at hh
        refine ih (g ++ [p]) (Or.inr (Or.inr ?_)) h hh
        rw [bufLen_append1]
        omega
      · rw [show chunkGroupsGo B (p :: ps) g = g :: chunkGroupsGo B ps [p] from by
          show (if bufLen g + p.length < B then _ else _) = _
          rw [if_neg hc]] at hh
        rcases List.mem_cons.mp hh with rfl | hh'
        · exact flushGood h hinv
        · exact ih [p] (Or.inr (Or.inl ⟨p, rfl⟩)) h hh'

theorem chunkGroupsGo_mem_source (B : Nat) (ps : List Str) :
    ∀ g : List Str, ∀ h ∈ chunkGroupsGo B ps g, ∀ q ∈ h, q ∈ g ∨ q ∈ ps := by
  induction ps with
  | nil =>
      intro g h hh q hq
      by_cases hg : g = []
      · rw [show chunkGroupsGo B [] g = [] from by
          show (if g = [] then _ else _) = _
          rw [if_pos hg]] at hh
        cases hh
      · rw [show chunkGroupsGo B [] g = [g] from by
          show (if g = [] then _ else _) = _
          rw [if_neg hg]] at hh
        rw [List.mem_singleton.mp hh] at hq
        exact Or.inl hq
  | cons p ps ih =>
      intro g h hh q hq
      by_cases hc : bufLen g + p.length < B
      · rw [show chunkGroupsGo B (p :: ps) g = chunkGroupsGo B ps (g ++ [p]) from by
          show (if bufLen g + p.length < B then _ else _) = _
          rw [if_pos hc]] at hh
        rcases ih (g ++ [p]) h hh q hq with hmem | hmem
        · rcases List.mem_append.mp hmem with hmem' | hmem'
          · exact Or.inl hmem'
          · exact Or.inr (by simpa using Or.inl (List.mem_singleton.mp hmem'))
        · exact Or.inr (List.mem_cons_of_mem _ hmem)
      · rw [show chunkGroupsGo B (p :: ps) g = g :: chunkGroupsGo B ps [p] from by
          show (if bufLen g + p.length < B then _ else _) = _
          rw [if_neg hc]] at hh
        rcases List.mem_cons.mp hh with rfl | hh'
        · exact Or.inl hq
        · rcases ih [p] h hh' q hq with hmem | hmem
          · exact Or.inr (by simpa using Or.inl (List.mem_singleton.mp hmem))
          · exact Or.inr (List.mem_cons_of_mem _ hmem)

theorem chunkGroupsGo_ne_nil (B : Nat) (ps : List Str) :
    ∀ g : List Str, ps ≠ [] ∨ g ≠ [] → chunkGroupsGo B ps g ≠ [] := by
  induction ps with
  | nil =>
      rintro g (h | h)
      · exact absurd rfl h
      · rw [show chunkGroupsGo B [] g = [g] from by
          show (if g = [] then _ else _) = _
          rw [if_neg h]]
        simp
  | cons p ps ih =>
      intro g _
      by_cases hc : bufLen g + p.length < B
      · rw [show chunkGroupsGo B (p :: ps) g = chunkGroupsGo B ps (g ++ [p]) from by
          show (if bufLen g + p.length < B then _ else _) = _
          rw [if_pos hc]]
        exact ih (g ++ [p]) (Or.inr (by simp))
      · rw [show chunkGroupsGo B (p :: ps) g = g :: chunkGroupsGo B ps [p] from by
          show (if bufLen g + p.length < B then _ else _) = _
          rw [if_neg hc]]
        simp

/-- C3: for paragraph sequences as the source produces them (non-empty,
whitespace-trimmed) and any budget B, the `ler_arquivo` chunker yields at
least one chunk on non-empty input, and there is a grouping of the
paragraphs — in order, none split, none dropped — such that each chunk
is exactly its group joined by single newlines, and each chunk either
fits the budget or is a single paragraph longer than the budget. -/
theorem lerChunks_roundtrip_and_bound (B : Nat) (paras : List Str)
    (hp : ∀ p ∈ paras, p ≠ [] ∧ strip p = p) :
    (paras ≠ [] → lerChunks B paras ≠ []) ∧
    (chunkGroups B paras).flatten = paras ∧
    lerChunks B paras = (chunkGroups B paras).map intNL ∧
    ∀ g ∈ chunkGroups B paras,
      (intNL g).length ≤ B ∨ ∃ p, g = [p] ∧ B < p.length := by
  have hmap : lerChunks B paras = (chunkGroups B paras).map intNL := by
    have h0 : lerChunks B paras
        = (chunkGroupsGo B paras []).map (fun h => strip (joinNL h)) := by
      have := lerChunkGo_groups B paras []
      simpa [lerChunks, joinNL] using this
    rw [h0]
    apply List.map_congr_left
    intro g hg
    apply strip_joinNL
    intro q hq
    rcases chunkGroupsGo_mem_source B paras [] g hg q hq with h | h
    · cases h
    · exact hp q h
  refine ⟨?_, ?_, hmap, ?_⟩
  · intro hne
    rw [hmap]
    have := chunkGroupsGo_ne_nil B paras [] (Or.inl hne)
    intro hmapnil
    exact this (List.map_eq_nil_iff.mp hmapnil)
  · simpa [chunkGroups] using chunkGroupsGo_flatten B paras []
  · intro g hg
    exact chunkGroupsGo_good B paras [] (Or.inl rfl) g hg

/-- C3 witness: a concrete two-paragraph input at budget 3 — the first
paragraph fills the buffer, the second starts a fresh chunk. -/
theorem lerChunks_roundtrip_witness :
    (∀ p ∈ [['a', 'b'], ['c']], p ≠ ([] : Str) ∧ strip p = p) ∧
    ((([['a', 'b'], ['c']] : List Str) ≠ [] → lerChunks 3 [['a', 'b'], ['c']] ≠ []) ∧
     (chunkGroups 3 [['a', 'b'], ['c']]).flatten = [['a', 'b'], ['c']] ∧
     lerChunks 3 [['a', 'b'], ['c']] = (chunkGroups 3 [['a', 'b'], ['c']]).map intNL ∧
     ∀ g ∈ chunkGroups 3 [['a', 'b'], ['c']],
       (intNL g).length ≤ 3 ∨ ∃ p, g = [p] ∧ 3 < p.length) :=
  ⟨by decide, lerChunks_roundtrip_and_bound 3 [['a', 'b'], ['c']] (by decide)⟩

theorem indexLoop_eq_chunksRaw (encode : Str → Vec) (f : TFile) :
    ∀ (ps : List Str) (buf : Str),
      indexLoop encode f ps buf
        = ((chunksRaw ps buf).map (fun b => encode b), (chunksRaw ps buf).map (mkMeta f)) := by
  intro ps
  induction ps with
  | nil =>
      intro buf
      by_cases h : buf = [] <;> simp [indexLoop, chunksRaw, h]
  | cons p ps ih =>
      intro buf
      by_cases hc : buf.length + p.length < 5000
      · rw [show indexLoop encode f (p :: ps) buf = indexLoop encode f ps (buf ++ p ++ ['\n'])
            from by
          show (if buf.length + p.length < 5000 then _ else _) = _
          rw [if_pos hc]]
        rw [show chunksRaw (p :: ps) buf = chunksRaw ps (buf ++ p ++ ['\n']) from by
          show (if buf.length + p.length < 5000 then _ else _) = _
          rw [if_pos hc]]
        exact ih _
      · rw [show chunksRaw (p :: ps) buf = buf :: chunksRaw ps (p ++ ['\n']) from by
          show (if buf.length + p.length < 5000 then _ else _) = _
          rw [if_neg hc]]
        have hL : indexLoop encode f (p :: ps) buf
            = (encode buf :: (indexLoop encode f ps (p ++ ['\n'])).1,
               mkMeta f buf :: (indexLoop encode f ps (p ++ ['\n'])).2) := by
          show (if buf.length + p.length < 5000 then _ else _) = _
          rw [if_neg hc]
        rw [hL, ih]
        rfl

theorem processFile_chunks (encode : Str → Vec) (f : TFile) :
    ∃ bs : List Str, processFile encode f = (bs.map (fun b => encode b), bs.map (mkMeta f)) := by
  obtain ⟨nome, fid, mime, fetch⟩ := f
  cases mime with
  | other => exact ⟨[], rfl⟩
  | gdoc =>
      cases fetch with
      | error e => exact ⟨[], rfl⟩
      | ok raw =>
          by_cases hp : docxParas raw = []
          · exact ⟨[], by simp [processFile, hp]⟩
          · exact ⟨chunksRaw (docxParas raw) [],
              by simp [processFile, hp, indexLoop_eq_chunksRaw]⟩
  | docx =>
      cases fetch with
      | error e => exact ⟨[], rfl⟩
      | ok raw =>
          by_cases hp : docxParas raw = []
          · exact ⟨[], by simp [processFile, hp]⟩
          · exact ⟨chunksRaw (docxParas raw) [],
              by simp [processFile, hp, indexLoop_eq_chunksRaw]⟩

/-- C1: after any run of the index build, `embeddings_list` and
`metadados` have equal length, the FAISS index built by `add` holds
exactly that many vectors, and there is one sequence of (file, chunk)
pairs of which the vector list is the embedding image and the metadata
list the metadata image — every insertion into the vector index is
mirrored by exactly one append of the same chunk's metadata, in order,
with no gaps. -/
theorem indexar_transcripts_parallel_invariant (encode : Str → Vec) (files : List TFile) :
    (indexar_transcripts encode files).1.length
      = (indexar_transcripts encode files).2.length ∧
    (faissAdd ⟨[]⟩ (indexar_transcripts encode files).1).size
      = (indexar_transcripts encode files).2.length ∧
    ∃ cs : List (TFile × Str),
      (indexar_transcripts encode files).1 = cs.map (fun c => encode c.2) ∧
      (indexar_transcripts encode files).2 = cs.map (fun c => mkMeta c.1 c.2) := by
  have hmain : ∃ cs : List (TFile × Str),
      (indexar_transcripts encode files).1 = cs.map (fun c => encode c.2) ∧
      (indexar_transcripts encode files).2 = cs.map (fun c => mkMeta c.1 c.2) := by
    induction files with
    | nil => exact ⟨[], rfl, rfl⟩
    | cons f fs ih =>
        obtain ⟨cs, h1, h2⟩ := ih
        obtain ⟨bs, hbs⟩ := processFile_chunks encode f
        refine ⟨bs.map (fun b => (f, b)) ++ cs, ?_, ?_⟩
        · show (processFile encode f).1 ++ (indexar_transcripts encode fs).1 = _
          rw [hbs, h1]
          simp [Function.comp]
        · show (processFile encode f).2 ++ (indexar_transcripts encode fs).2 = _
          rw [hbs, h2]
          simp [Function.comp]
  obtain ⟨cs, h1, h2⟩ := hmain
  refine ⟨?_, ?_, cs, h1, h2⟩
  · rw [h1, h2]
    simp
  · show ([] ++ (indexar_transcripts encode files).1).length = _
    rw [List.nil_append, h1, h2]
    simp

theorem foldl_filter_of_id {α β : Type} (step : β → α → β) (ok : α → Bool)
    (hid : ∀ b a, ok a = false → step b a = b) :
    ∀ (l : List α) (b : β), l.foldl step b = (l.filter ok).foldl step b := by
  intro l
  induction l with
  | nil => intro b; rfl
  | cons a l ih =>
      intro b
      by_cases h : ok a
      · rw [List.foldl_cons, List.filter_cons, if_pos h, List.foldl_cons, ih]
      · rw [List.foldl_cons, List.filter_cons, if_neg (by simp [h]),
          hid b a (by simpa using h), ih]

theorem buscarStep_skip_read {pOpt : Option Str} {termos : List Str} {foco : Bool}
    {acc : List DFile × List Nat} {f : DFile} (h : exOk f.read = false) :
    buscarStep pOpt termos foco acc f = acc := by
  by_cases hin : f.id ∈ acc.2
  · simp [buscarStep, hin]
  · cases hr : f.read with
    | error e => simp [buscarStep, hin, hr]
    | ok c => rw [hr] at h; simp [exOk] at h

theorem buscarStep_skip_lower {pOpt : Option Str} {termos : List Str} {foco : Bool}
    {acc : List DFile × List Nat} {f : DFile} (h : dfLowerOk f = false) :
    buscarStep pOpt termos foco acc f = acc := by
  by_cases hin : f.id ∈ acc.2
  · simp [buscarStep, hin]
  · cases hr : f.read with
    | error e => simp [buscarStep, hin, hr]
    | ok c =>
        cases hl : lowerConteudo c with
        | error e => simp [buscarStep, hin, hr, hl]
        | ok s =>
            rw [dfLowerOk, hr] at h
            simp [Except.bind, hl, exOk] at h

theorem buscar_filter (lf : Str → List DFile) (pOpt : Option Str) (termos : List Str)
    (foco : Bool) (seen : List Nat) (ok : DFile → Bool)
    (hid : ∀ acc f, ok f = false → buscarStep pOpt termos foco acc f = acc) :
    buscar lf pOpt termos foco seen
      = buscar (fun t => (lf t).filter ok) pOpt termos foco seen := by
  unfold buscar
  suffices h : ∀ (ts : List Str) (acc : List DFile × List Nat),
      ts.foldl (fun acc termo => (lf termo).foldl (buscarStep pOpt termos foco) acc) acc
        = ts.foldl (fun acc termo =>
            ((lf termo).filter ok).foldl (buscarStep pOpt termos foco) acc) acc by
    exact h termos ([], seen)
  intro ts
  induction ts with
  | nil => intro acc; rfl
  | cons t ts ih =>
      intro acc
      rw [List.foldl_cons, List.foldl_cons, ih,
        foldl_filter_of_id (buscarStep pOpt termos foco) ok hid (lf t) acc]

theorem processFile_fetch_err (encode : Str → Vec) (f : TFile)
    (h : exOk f.fetch = false) : processFile encode f = ([], []) := by
  obtain ⟨nome, fid, mime, fetch⟩ := f
  cases mime with
  | other => rfl
  | gdoc =>
      cases fetch with
      | error e => rfl
      | ok raw => simp [exOk] at h
  | docx =>
      cases fetch with
      | error e => rfl
      | ok raw => simp [exOk] at h

theorem indexar_transcripts_cons (encode : Str → Vec) (f : TFile) (fs : List TFile) :
    indexar_transcripts encode (f :: fs)
      = ((processFile encode f).1 ++ (indexar_transcripts encode fs).1,
         (processFile encode f).2 ++ (indexar_transcripts encode fs).2) := rfl

theorem indexar_transcripts_filter (encode : Str → Vec) (files : List TFile) :
    indexar_transcripts encode files
      = indexar_transcripts encode (files.filter (fun f => exOk f.fetch)) := by
  induction files with
  | nil => rfl
  | cons f fs ih =>
      by_cases h : exOk f.fetch
      · rw [List.filter_cons, if_pos (by simp [h]), indexar_transcripts_cons,
          indexar_transcripts_cons, ih]
      · rw [List.filter_cons, if_neg (by simp [h]), indexar_transcripts_cons,
          processFile_fetch_err encode f (by simpa using h), ih]
        simp

/-- C8: per-item failure isolation.  A candidate whose content fetch
fails contributes nothing and changes nothing: the orchestrated search
equals the same search over the listing with the failing candidates
removed, and the index build equals the build over the candidate list
with the fetch-failing files removed — the batch always completes with
the remaining items' results. -/
theorem batch_per_item_isolation (lf : Str → List DFile) (pOpt : Option Str)
    (termos : List Str) (foco : Bool) (seen : List Nat)
    (encode : Str → Vec) (files : List TFile) :
    buscar lf pOpt termos foco seen
      = buscar (fun t => (lf t).filter (fun f => exOk f.read)) pOpt termos foco seen ∧
    indexar_transcripts encode files
      = indexar_transcripts encode (files.filter (fun f => exOk f.fetch)) :=
  ⟨buscar_filter lf pOpt termos foco seen (fun f => exOk f.read)
      (fun _ _ h => buscarStep_skip_read h),
   indexar_transcripts_filter encode files⟩

/-- C10: the shape of `conteudo` depends on the document kind — a DOCX
with readable paragraphs yields a LIST of at most ten chunk strings (with
`total_chunks` counting all chunks), while PDF, TXT and unsupported kinds
yield a single string truncated to 150000 characters; `.lower()` on a
DOCX `conteudo` raises, so the orchestrated search's content filter skips
every such file (its results equal those over the listing with the
list-shaped files removed). -/
theorem ler_arquivo_conteudo_shape (vf : VFile) :
    (∀ raw, vf.kind = FileKind.docx raw → docxParas raw ≠ [] →
        (ler_arquivo vf).conteudo
          = Conteudo.chunks ((lerChunks 5000 (docxParas raw)).take 10) ∧
        (ler_arquivo vf).total_chunks = some (lerChunks 5000 (docxParas raw)).length ∧
        (∃ cs, (ler_arquivo vf).conteudo = Conteudo.chunks cs ∧ cs.length ≤ 10) ∧
        lowerConteudo (ler_arquivo vf).conteudo = .error ()) ∧
    (∀ pages, vf.kind = FileKind.pdf pages →
        ∃ s, (ler_arquivo vf).conteudo = Conteudo.str s ∧ s.length ≤ 150000) ∧
    (∀ b, vf.kind = FileKind.txt b →
        ∃ s, (ler_arquivo vf).conteudo = Conteudo.str s ∧ s.length ≤ 150000) ∧
    (∀ m, vf.kind = FileKind.other m →
        ∃ s, (ler_arquivo vf).conteudo = Conteudo.str s ∧ s.length ≤ 150000) ∧
    (∀ (lf : Str → List DFile) pOpt termos foco seen,
        buscar lf pOpt termos foco seen
          = buscar (fun t => (lf t).filter dfLowerOk) pOpt termos foco seen) := by
  obtain ⟨nome, kind⟩ := vf
  have hbottom : ∀ texto, ∃ s, (bottomResp nome texto).conteudo = Conteudo.str s ∧
      s.length ≤ 150000 := by
    intro texto
    refine ⟨_, rfl, ?_⟩
    simp only [List.length_take]
    omega
  refine ⟨?_, ?_, ?_, ?_, ?_⟩
  · intro raw h hne
    cases h
    refine ⟨?_, ?_, ?_, ?_⟩
    · simp [ler_arquivo, hne]
    · simp [ler_arquivo, hne]
    · refine ⟨(lerChunks 5000 (docxParas raw)).take 10, by simp [ler_arquivo, hne], ?_⟩
      simp only [List.length_take]
      omega
    · simp [ler_arquivo, hne, lowerConteudo]
  · intro pages h
    cases h
    exact hbottom _
  · intro b h
    cases h
    exact hbottom _
  · intro m h
    cases h
    exact hbottom _
  · intro lf pOpt termos foco seen
    exact buscar_filter lf pOpt termos foco seen dfLowerOk
      (fun _ _ h => buscarStep_skip_lower h)

/-- C10 witness: a readable one-paragraph DOCX yields a chunk list on
which `.lower()` raises; a PDF yields a bounded string. -/
theorem ler_arquivo_conteudo_shape_witness :
    docxParas ["hello".data] ≠ [] ∧
    (ler_arquivo ⟨"d".data, FileKind.docx ["hello".data]⟩).conteudo
      = Conteudo.chunks ((lerChunks 5000 (docxParas ["hello".data])).take 10) ∧
    lowerConteudo (ler_arquivo ⟨"d".data, FileKind.docx ["hello".data]⟩).conteudo
      = .error () ∧
    ∃ s, (ler_arquivo ⟨"p".data, FileKind.pdf ["pg".data]⟩).conteudo = Conteudo.str s ∧
      s.length ≤ 150000 := by
  have h1 := ler_arquivo_conteudo_shape ⟨"d".data, FileKind.docx ["hello".data]⟩
  have h2 := ler_arquivo_conteudo_shape ⟨"p".data, FileKind.pdf ["pg".data]⟩
  have hd := h1.1 ["hello".data] rfl (by decide)
  exact ⟨by decide, hd.1, hd.2.2.2, h2.2.1 ["pg".data] rfl⟩

theorem buscarStep_cases (pOpt : Option Str) (termos : List Str) (foco : Bool)
    (acc : List DFile × List Nat) (f : DFile) :
    buscarStep pOpt termos foco acc f = acc ∨
    buscarStep pOpt termos foco acc f = (acc.1 ++ [f], acc.2 ++ [f.id]) := by
  by_cases hin : f.id ∈ acc.2
  · exact Or.inl (by simp [buscarStep, hin])
  · cases hr : f.read with
    | error e => exact Or.inl (by simp [buscarStep, hin, hr])
    | ok c =>
        cases hl : lowerConteudo c with
        | error e => exact Or.inl (by simp [buscarStep, hin, hr, hl])
        | ok s =>
            by_cases hf : (foco && !(strIn (pOpt.getD []) (pyLower f.name))
                && !(strIn (pOpt.getD []) s)) = true
            · exact Or.inl (by simp [buscarStep, hin, hr, hl, hf])
            · by_cases ht : termos.any (fun t => strIn t s) = true
              · exact Or.inr (by simp [buscarStep, hin, hr, hl, hf, ht])
              · exact Or.inl (by simp [buscarStep, hin, hr, hl, hf, ht])

theorem foldl_buscarStep_grow (pOpt : Option Str) (termos : List Str) (foco : Bool) :
    ∀ (l : List DFile) (acc : List DFile × List Nat),
      ∃ t u, l.foldl (buscarStep pOpt termos foco) acc = (acc.1 ++ t, acc.2 ++ u) ∧
        (t = [] → u = []) := by
  intro l
  induction l with
  | nil => intro acc; exact ⟨[], [], by simp, fun _ => rfl⟩
  | cons f l ih =>
      intro acc
      rcases buscarStep_cases pOpt termos foco acc f with h | h
      · obtain ⟨t, u, he, hi⟩ := ih acc
        refine ⟨t, u, ?_, hi⟩
        rw [List.foldl_cons, h, he]
      · obtain ⟨t, u, he, hi⟩ := ih (acc.1 ++ [f], acc.2 ++ [f.id])
        refine ⟨f :: t, f.id :: u, ?_, by simp⟩
        rw [List.foldl_cons, h, he]
        simp

theorem buscar_grow (lf : Str → List DFile) (pOpt : Option Str) (termos : List Str)
    (foco : Bool) (seen : List Nat) :
    ∃ t u, buscar lf pOpt termos foco seen = (t, seen ++ u) ∧ (t = [] → u = []) := by
  unfold buscar
  suffices h : ∀ (ts : List Str) (acc : List DFile × List Nat),
      ∃ t u, ts.foldl (fun acc termo =>
          (lf termo).foldl (buscarStep pOpt termos foco) acc) acc
        = (acc.1 ++ t, acc.2 ++ u) ∧ (t = [] → u = []) by
    obtain ⟨t, u, he, hi⟩ := h termos ([], seen)
    exact ⟨t, u, by simpa using he, hi⟩
  intro ts
  induction ts with
  | nil => intro acc; exact ⟨[], [], by simp, fun _ => rfl⟩
  | cons tm ts ih =>
      intro acc
      obtain ⟨t1, u1, he1, hi1⟩ := foldl_buscarStep_grow pOpt termos foco (lf tm) acc
      obtain ⟨t2, u2, he2, hi2⟩ :=
        ih ((lf tm).foldl (buscarStep pOpt termos foco) acc)
      refine ⟨t1 ++ t2, u1 ++ u2, ?_, ?_⟩
      · rw [List.foldl_cons, he2, he1]
        simp
      · intro h
        rw [List.append_eq_nil] at h
        rw [hi1 h.1, hi2 h.2]
        rfl

theorem buscar_nil_seen (lf : Str → List DFile) (pOpt : Option Str) (termos : List Str)
    (foco : Bool) (seen : List Nat)
    (h : (buscar lf pOpt termos foco seen).1 = []) :
    (buscar lf pOpt termos foco seen).2 = seen := by
  obtain ⟨t, u, he, hi⟩ := buscar_grow lf pOpt termos foco seen
  rw [he] at h ⊢
  simp only at h
  rw [hi h]
  simp

/-- C6 counterexample: when no person is detected the EXPANDED tier
produces the returned (non-empty) results, yet `busca_expandida` is
`false` — the flag does not report which tier produced the results. -/
theorem smart_search_flag_counterexample :
    personOf eNone eNone "data".data = none ∧
    (smart_search lfC eNone eNone "data".data).arquivos_encontrados ≠ [] ∧
    (smart_search lfC eNone eNone "data".data).busca_expandida = false ∧
    ¬ flagReportsExpandedTier lfC eNone eNone "data".data := by
  refine ⟨by decide, by decide, by decide, ?_⟩
  unfold flagReportsExpandedTier
  decide

/-- C6 amended: the PERSON_SCOPED tier runs iff a person is detected,
the transition to EXPANDED happens exactly once — when the scoped tier
yields zero results (or immediately when no person is detected) — but
`busca_expandida` reports whether the person-scoped FALLBACK fired
(person detected AND scoped tier empty), not which tier produced the
results: with no person it stays `false` although EXPANDED produced
them. -/
theorem smart_search_tier_characterisation (lf : Str → List DFile)
    (entsEn entsPt : Str → List (Str × Str)) (q : Str) :
    smart_search lf entsEn entsPt q =
      ⟨personOf entsEn entsPt q,
       (personOf entsEn entsPt q).isSome && (scopedRun lf entsEn entsPt q).1.isEmpty,
       if (personOf entsEn entsPt q).isSome && !(scopedRun lf entsEn entsPt q).1.isEmpty
         then (scopedRun lf entsEn entsPt q).1
         else (buscar lf (personOf entsEn entsPt q) (expandir_termos q) false []).1,
       (if (personOf entsEn entsPt q).isSome && !(scopedRun lf entsEn entsPt q).1.isEmpty
         then (scopedRun lf entsEn entsPt q).1
         else (buscar lf (personOf entsEn entsPt q) (expandir_termos q) false []).1).length⟩ := by
  cases hp : (detectar_pessoa_spacy entsEn entsPt q).head?.map pyLower with
  | none =>
      simp [smart_search, personOf, scopedRun, hp]
  | some p =>
      by_cases hs : (buscar lf (some p) (expandir_termos q) true []).1 = []
      · have hseen := buscar_nil_seen lf (some p) (expandir_termos q) true [] hs
        simp [smart_search, personOf, scopedRun, hp, hs, hseen]
      · simp [smart_search, personOf, scopedRun, hp, hs]

/-- C2: the claim is right and the code has a slip.  The body of
`search_transcripts` does raise a NotFound-style `HTTPException(404)`
when the index artifacts are absent — but the endpoint's blanket
`except Exception` catches that very exception and re-raises it as a
GENERIC `HTTPException(500)` whose detail merely embeds the 404 text, so
the caller cannot distinguish a missing index from any other server
error by status.  Zero matches (here: the index returns a position the
metadata list lacks, so the guard skips every row) does return the valid
non-error message.  A further slip of the same handler: with both
artifacts present but EMPTY, the FAISS padding index `-1` passes the
`idx < len(metadados)` guard and `metadados[-1]` raises `IndexError`,
which the handler also turns into a 500. -/
theorem search_transcripts_missing_index_returns_500 (encode : Str → Vec)
    (q : Str) (k : Nat) :
    searchTranscriptsBody encode stEmpty q k = .error (.http 404 msg404) ∧
    search_transcripts encode stEmpty q k
      = .error (.http 500 (msgSearchErr ++ excStr (.http 404 msg404))) ∧
    search_transcripts encode ⟨some [[(0 : ℚ)]], some []⟩ q 1
      = .ok (.mensagem msgNoResults) ∧
    search_transcripts encode ⟨some [], some []⟩ q 1
      = .error (.http 500 (msgSearchErr ++ excStr .indexError)) :=
  ⟨rfl, rfl, rfl, rfl⟩

theorem scoredFrom_length (q : Vec) :
    ∀ (vs : List Vec) (i : Int), (scoredFrom q vs i).length = vs.length := by
  intro vs
  induction vs with
  | nil => intro i; rfl
  | cons v vs ih => intro i; simp [scoredFrom, ih]

theorem scoredFrom_bounds (q : Vec) :
    ∀ (vs : List Vec) (i : Int), ∀ p ∈ scoredFrom q vs i,
      i ≤ p.1 ∧ p.1 < i + vs.length := by
  intro vs
  induction vs with
  | nil => intro i p hp; cases hp
  | cons v vs ih =>
      intro i p hp
      rcases List.mem_cons.mp hp with rfl | hp'
      · simp
      · have := ih (i + 1) p hp'
        simp only [List.length_cons]
        push_cast
        push_cast at this
        omega

theorem pyGet_eq_some {l : List Meta} {i : Int} (h0 : 0 ≤ i) (hlt : i.toNat < l.length) :
    pyGet l i = some (metaD l i) := by
  cases hg : pyGet l i with
  | some m =>
      rw [metaD, hg]
      rfl
  | none =>
      exfalso
      simp only [pyGet, h0, if_true, if_pos h0] at hg
      have := List.get?_eq_none.mp hg
      omega

theorem searchResults_all_some (metadados : List Meta) :
    ∀ pairs : List (Int × ℚ),
      (∀ p ∈ pairs, p.1 < (metadados.length : Int) ∧
        pyGet metadados p.1 = some (metaD metadados p.1)) →
      searchResults metadados pairs
        = .ok (pairs.map (fun p =>
            ⟨(metaD metadados p.1).arquivo, (metaD metadados p.1).file_id,
             (metaD metadados p.1).trecho, 1 - p.2 / 2⟩)) := by
  intro pairs
  induction pairs with
  | nil => intro _; rfl
  | cons p ps ih =>
      intro h
      obtain ⟨hguard, hget⟩ := h p (List.mem_cons_self p ps)
      show (if p.1 < (metadados.length : Int) then _ else _) = _
      rw [if_pos hguard, hget, ih (fun x hx => h x (List.mem_cons_of_mem _ hx))]
      rfl

/-- C5: with the build invariant `len(metadados) = index size` and any
`k ≤` the number of indexed chunks, the semantic query completes without
error and returns EXACTLY `k` results; they are the `k` nearest stored
vectors under (squared) L2 distance — every chosen distance is ≤ every
unchosen one — mapped back through the parallel metadata array at their
index positions, each carrying the similarity score `1 - distance / 2`;
and (for `k ≥ 1`) the endpoint returns them as a valid result
response. -/
theorem search_transcripts_topk_contract (encode : Str → Vec) (metadados : List Meta)
    (vecs : List Vec) (text : Str) (k : Nat)
    (hm : metadados.length = vecs.length) (hk : k ≤ vecs.length) :
    (∃ rs, searchResults metadados (faissSearch vecs (encode text) k) = .ok rs ∧
      rs.length = k) ∧
    (∃ chosen rest,
      List.insertionSort distLE (scoredFrom (encode text) vecs 0) = chosen ++ rest ∧
      chosen.length = k ∧
      List.Perm (chosen ++ rest) (scoredFrom (encode text) vecs 0) ∧
      (∀ x ∈ chosen, ∀ y ∈ rest, x.2 ≤ y.2) ∧
      (∀ x ∈ chosen, 0 ≤ x.1 ∧ x.1.toNat < metadados.length) ∧
      searchResults metadados (faissSearch vecs (encode text) k)
        = .ok (chosen.map (fun p =>
            ⟨(metaD metadados p.1).arquivo, (metaD metadados p.1).file_id,
             (metaD metadados p.1).trecho, 1 - p.2 / 2⟩)) ∧
      (1 ≤ k → search_transcripts encode ⟨some vecs, some metadados⟩ text k
          = .ok (.resultados text k
              (chosen.map (fun p =>
                ⟨(metaD metadados p.1).arquivo, (metaD metadados p.1).file_id,
                 (metaD metadados p.1).trecho, 1 - p.2 / 2⟩))))) := by
  have hslen : (scoredFrom (encode text) vecs 0).length = vecs.length :=
    scoredFrom_length (encode text) vecs 0
  have hperm : List.Perm (List.insertionSort distLE (scoredFrom (encode text) vecs 0))
      (scoredFrom (encode text) vecs 0) := List.perm_insertionSort distLE _
  have hsortlen : (List.insertionSort distLE (scoredFrom (encode text) vecs 0)).length
      = vecs.length := hperm.length_eq.trans hslen
  have hsorted : List.Sorted distLE
      (List.insertionSort distLE (scoredFrom (encode text) vecs 0)) :=
    List.sorted_insertionSort distLE _
  have hpad : k - vecs.length = 0 := Nat.sub_eq_zero_of_le hk
  have hfs : faissSearch vecs (encode text) k
      = (List.insertionSort distLE (scoredFrom (encode text) vecs 0)).take k := by
    unfold faissSearch
    rw [hpad]
    simp
  have hbounds : ∀ p ∈ (List.insertionSort distLE (scoredFrom (encode text) vecs 0)).take k,
      0 ≤ p.1 ∧ p.1.toNat < metadados.length := by
    intro p hp
    have hp' : p ∈ scoredFrom (encode text) vecs 0 :=
      hperm.mem_iff.mp (List.mem_of_mem_take hp)
    have := scoredFrom_bounds (encode text) vecs 0 p hp'
    rw [hm]
    omega
  have hall : ∀ p ∈ (List.insertionSort distLE (scoredFrom (encode text) vecs 0)).take k,
      p.1 < (metadados.length : Int) ∧
      pyGet metadados p.1 = some (metaD metadados p.1) := by
    intro p hp
    obtain ⟨h0, hlt⟩ := hbounds p hp
    exact ⟨by omega, pyGet_eq_some h0 hlt⟩
  have hmap : searchResults metadados (faissSearch vecs (encode text) k)
      = .ok (((List.insertionSort distLE (scoredFrom (encode text) vecs 0)).take k).map
          (fun p => ⟨(metaD metadados p.1).arquivo, (metaD metadados p.1).file_id,
            (metaD metadados p.1).trecho, 1 - p.2 / 2⟩)) := by
    rw [hfs]
    exact searchResults_all_some metadados _ hall
  have hlen : (((List.insertionSort distLE (scoredFrom (encode text) vecs 0)).take k).map
      (fun p => (⟨(metaD metadados p.1).arquivo, (metaD metadados p.1).file_id,
        (metaD metadados p.1).trecho, 1 - p.2 / 2⟩ : SRes))).length = k := by
    rw [List.length_map, List.length_take, hsortlen]
    omega
  refine ⟨⟨_, hmap, hlen⟩, ?_⟩
  refine ⟨(List.insertionSort distLE (scoredFrom (encode text) vecs 0)).take k,
    (List.insertionSort distLE (scoredFrom (encode text) vecs 0)).drop k,
    (List.take_append_drop k _).symm, ?_, ?_, ?_, hbounds, hmap, ?_⟩
  · rw [List.length_take, hsortlen]
    omega
  · rw [List.take_append_drop]
    exact hperm
  · have hsplit : List.Pairwise distLE
        ((List.insertionSort distLE (scoredFrom (encode text) vecs 0)).take k ++
          (List.insertionSort distLE (scoredFrom (encode text) vecs 0)).drop k) := by
      rw [List.take_append_drop]
      exact hsorted
    exact (List.pairwise_append.mp hsplit).2.2
  · intro hk1
    have hne : (((List.insertionSort distLE (scoredFrom (encode text) vecs 0)).take k).map
        (fun p => (⟨(metaD metadados p.1).arquivo, (metaD metadados p.1).file_id,
          (metaD metadados p.1).trecho, 1 - p.2 / 2⟩ : SRes))) ≠ [] := by
      intro h0
      rw [h0] at hlen
      simp at hlen
      omega
    have hbody : searchTranscriptsBody encode ⟨some vecs, some metadados⟩ text k
        = .ok (.resultados text k
            (((List.insertionSort distLE (scoredFrom (encode text) vecs 0)).take k).map
              (fun p => ⟨(metaD metadados p.1).arquivo, (metaD metadados p.1).file_id,
                (metaD metadados p.1).trecho, 1 - p.2 / 2⟩))) := by
      show (match searchResults metadados (faissSearch vecs (encode text) k) with
            | .error _ => Except.error Exc.indexError
            | .ok resultados =>
                if resultados = [] then Except.ok (SOut.mensagem msgNoResults)
                else Except.ok (.resultados text resultados.length resultados)) = _
      rw [hmap]
      show (if _ = ([] : List SRes) then Except.ok (SOut.mensagem msgNoResults)
            else Except.ok (.resultados text _ _)) = _
      rw [if_neg hne, hlen]
    show (match searchTranscriptsBody encode ⟨some vecs, some metadados⟩ text k with
          | .ok r => Except.ok r
          | .error e => Except.error (Exc.http 500 (msgSearchErr ++ excStr e))) = _
    rw [hbody]

/-- C5 witness: two one-dimensional vectors, k = 2 — both hypotheses
hold at this concrete index and the contract instantiates: the search
succeeds with exactly two result rows. -/
theorem search_transcripts_topk_witness :
    ([⟨"a".data, "ida".data, "ta".data⟩,
      ⟨"b".data, "idb".data, "tb".data⟩] : List Meta).length
      = ([[(0 : ℚ)], [(2 : ℚ)]] : List Vec).length ∧
    2 ≤ ([[(0 : ℚ)], [(2 : ℚ)]] : List Vec).length ∧
    ∃ rs, searchResults [⟨"a".data, "ida".data, "ta".data⟩, ⟨"b".data, "idb".data, "tb".data⟩]
        (faissSearch [[(0 : ℚ)], [(2 : ℚ)]] ((fun _ => [(0 : ℚ)]) "q".data) 2) = .ok rs ∧
      rs.length = 2 :=
  ⟨rfl, by decide,
    (search_transcripts_topk_contract (fun _ => [(0 : ℚ)])
      [⟨"a".data, "ida".data, "ta".data⟩, ⟨"b".data, "idb".data, "tb".data⟩]
      [[(0 : ℚ)], [(2 : ℚ)]] "q".data 2 rfl (by decide)).1⟩

theorem lookup_eq_of_nodup {β : Type} {a : Nat} {l : List (Nat × β)} {b : β}
    (hnd : (l.map Prod.fst).Nodup) (hm : (a, b) ∈ l) : l.lookup a = some b := by
  induction l with
  | nil => cases hm
  | cons x xs ih =>
      rcases List.mem_cons.mp hm with heq | hmem
      · rw [← heq, List.lookup]
        simp
      · have hne : (a == x.1) = false := by
          rw [beq_eq_false_iff_ne]
          rintro rfl
          exact (List.nodup_cons.mp hnd).1 (List.mem_map.mpr ⟨(x.1, b), hmem, rfl⟩)
        rw [List.lookup, hne]
        exact ih (List.nodup_cons.mp hnd).2 hmem

theorem listar_eq_tsWalk (cf : Nat → List DItem) (ts : List DTree) (parent : Str)
    (fuel : Nat) (hcf : ∀ e ∈ tsFolderTable ts, cf e.1 = e.2)
    (hd : tsDepth ts ≤ fuel) :
    ((ts.map itemOfTree).flatMap (fun item =>
        (item, caminhoItem parent item.name) ::
          (if item.isFolder then
            listar_conteudo cf fuel item.id (caminhoItem parent item.name)
          else []))) = tsWalk ts parent := by
  cases ts with
  | nil => rfl
  | cons t ts' =>
      have hcf' : ∀ e ∈ tsFolderTable ts', cf e.1 = e.2 := by
        intro e he
        exact hcf e (List.mem_append_right _ he)
      have hd' : tsDepth ts' ≤ fuel := by
        have hts : tsDepth (t :: ts') = max (tDepth t) (tsDepth ts') := rfl
        omega
      have hrest := listar_eq_tsWalk cf ts' parent fuel hcf' hd'
      cases t with
      | leaf i n =>
          rw [List.map_cons, List.flatMap_cons, hrest]
          rfl
      | node i n cs =>
          have hdt : tDepth (DTree.node i n cs) ≤ fuel := by
            have hts : tsDepth (DTree.node i n cs :: ts')
                = max (tDepth (DTree.node i n cs)) (tsDepth ts') := rfl
            omega
          have hnode : tDepth (DTree.node i n cs) = tsDepth cs + 1 := rfl
          obtain ⟨f', rfl⟩ : ∃ f', fuel = f' + 1 := ⟨fuel - 1, by omega⟩
          have hcfi : cf i = cs.map itemOfTree :=
            hcf (i, cs.map itemOfTree)
              (List.mem_append_left _ (List.mem_cons_self _ _))
          have hdcs : tsDepth cs ≤ f' := by omega
          have hcfcs : ∀ e ∈ tsFolderTable cs, cf e.1 = e.2 := by
            intro e he
            exact hcf e (List.mem_append_left _ (List.mem_cons_of_mem _ he))
          have hsub := listar_eq_tsWalk cf cs (caminhoItem parent n) f' hcfcs hdcs
          rw [List.map_cons, List.flatMap_cons, hrest]
          show (((⟨i, n, true⟩ : DItem), caminhoItem parent n) ::
              (cf i).flatMap (fun item =>
                (item, caminhoItem (caminhoItem parent n) item.name) ::
                  (if item.isFolder then
                    listar_conteudo cf f' item.id
                      (caminhoItem (caminhoItem parent n) item.name)
                  else []))) ++ tsWalk ts' parent
            = tsWalk (DTree.node i n cs :: ts') parent
          rw [hcfi, hsub]
          rfl
termination_by sizeOf ts

theorem tsWalk_map_fst (ts : List DTree) (parent : Str) :
    (tsWalk ts parent).map Prod.fst = tsItems ts := by
  cases ts with
  | nil => rfl
  | cons t ts' =>
      have hrest := tsWalk_map_fst ts' parent
      cases t with
      | leaf i n =>
          show (((⟨i, n, false⟩ : DItem), caminhoItem parent n) :: tsWalk ts' parent).map
              Prod.fst = _
          rw [List.map_cons, hrest]
          rfl
      | node i n cs =>
          have hsub := tsWalk_map_fst cs (caminhoItem parent n)
          show ((((⟨i, n, true⟩ : DItem), caminhoItem parent n) ::
              tsWalk cs (caminhoItem parent n)) ++ tsWalk ts' parent).map Prod.fst = _
          rw [List.map_append, List.map_cons, hsub, hrest]
          rfl
termination_by sizeOf ts

theorem tsWalk_paths (ts : List DTree) (parent : Str) :
    ∀ r ∈ tsWalk ts parent, ∃ pp, r.2 = caminhoItem pp r.1.name := by
  cases ts with
  | nil => intro r hr; cases hr
  | cons t ts' =>
      have hrest := tsWalk_paths ts' parent
      cases t with
      | leaf i n =>
          intro r hr
          have : r ∈ ((⟨i, n, false⟩ : DItem), caminhoItem parent n) :: tsWalk ts' parent := hr
          rcases List.mem_cons.mp this with rfl | hmem
          · exact ⟨parent, rfl⟩
          · exact hrest r hmem
      | node i n cs =>
          intro r hr
          have hsub := tsWalk_paths cs (caminhoItem parent n)
          have : r ∈ (((⟨i, n, true⟩ : DItem), caminhoItem parent n) ::
              tsWalk cs (caminhoItem parent n)) ++ tsWalk ts' parent := hr
          rcases List.mem_append.mp this with hmem | hmem
          · rcases List.mem_cons.mp hmem with rfl | hmem'
            · exact ⟨parent, rfl⟩
            · exact hsub r hmem'
          · exact hrest r hmem
termination_by sizeOf ts

theorem filter_id_count (l : List (DItem × Str)) (i : Nat) :
    (l.filter (fun r => r.1.id = i)).length = (l.map (fun r => r.1.id)).count i := by
  induction l with
  | nil => rfl
  | cons r l ih =>
      by_cases h : r.1.id = i
      · simp [List.filter_cons, h, List.count_cons, ih]
      · simp [List.filter_cons, h, List.count_cons, ih]

/-- C9 counterexample: on a diamond-shaped DAG (folders 1 and 2 under
the root both containing file 3) the walk emits file 3 twice — once per
parent path — refuting "every reachable item exactly once" for DAGs. -/
theorem indexar_drive_dag_duplicate :
    ((indexar_drive cfDiamond 5 0).arquivos.filter (fun r => r.1.id = 3)).length = 2 ∧
    ¬ ((indexar_drive cfDiamond 5 0).arquivos.filter (fun r => r.1.id = 3)).length = 1 := by
  decide

/-- C9 amended: for a remote hierarchy that is a TREE (distinct ids, one
parent chain per item), the walk with enough fuel for its depth produces
every non-trashed reachable item exactly once, stamps each record with
the materialized path `parent_path + "/" + name` stripped of outer
slashes, and the persisted snapshot's `total_itens` equals the number of
produced records.  (On a DAG, an item reachable via several parents is
produced once per path — see the counterexample.) -/
theorem indexar_drive_tree_walk (rootId : Nat) (ts : List DTree) (fuel : Nat)
    (hkeys : (((rootId, ts.map itemOfTree) :: tsFolderTable ts).map Prod.fst).Nodup)
    (hfuel : tsDepth ts < fuel)
    (hids : ((tsItems ts).map DItem.id).Nodup) :
    (indexar_drive (cfOf rootId ts) fuel rootId).arquivos = tsWalk ts [] ∧
    (indexar_drive (cfOf rootId ts) fuel rootId).total_itens
      = (indexar_drive (cfOf rootId ts) fuel rootId).arquivos.length ∧
    ((indexar_drive (cfOf rootId ts) fuel rootId).arquivos.map Prod.fst) = tsItems ts ∧
    (∀ it ∈ tsItems ts,
      ((indexar_drive (cfOf rootId ts) fuel rootId).arquivos.filter
        (fun r => r.1.id = it.id)).length = 1) ∧
    (∀ r ∈ (indexar_drive (cfOf rootId ts) fuel rootId).arquivos,
      ∃ pp, r.2 = caminhoItem pp r.1.name) := by
  have hcroot : cfOf rootId ts rootId = ts.map itemOfTree := by
    unfold cfOf
    rw [lookup_eq_of_nodup hkeys (List.mem_cons_self _ _)]
    rfl
  have hcf : ∀ e ∈ tsFolderTable ts, cfOf rootId ts e.1 = e.2 := by
    intro e he
    obtain ⟨a, b⟩ := e
    unfold cfOf
    rw [lookup_eq_of_nodup hkeys (List.mem_cons_of_mem _ he)]
    rfl
  obtain ⟨f', rfl⟩ : ∃ f', fuel = f' + 1 := ⟨fuel - 1, by omega⟩
  have harq : (indexar_drive (cfOf rootId ts) (f' + 1) rootId).arquivos
      = listar_conteudo (cfOf rootId ts) (f' + 1) rootId [] := rfl
  have hwalk : listar_conteudo (cfOf rootId ts) (f' + 1) rootId [] = tsWalk ts [] := by
    have hunf : listar_conteudo (cfOf rootId ts) (f' + 1) rootId []
        = ((cfOf rootId ts rootId).flatMap (fun item =>
            (item, caminhoItem [] item.name) ::
              (if item.isFolder then
                listar_conteudo (cfOf rootId ts) f' item.id (caminhoItem [] item.name)
              else []))) := rfl
    rw [hunf, hcroot]
    exact listar_eq_tsWalk (cfOf rootId ts) ts [] f' hcf (by omega)
  refine ⟨by rw [harq, hwalk], rfl, ?_, ?_, ?_⟩
  · rw [harq, hwalk, tsWalk_map_fst]
  · intro it hit
    rw [harq, hwalk, filter_id_count]
    have hmm : (tsWalk ts []).map (fun r => r.1.id) = (tsItems ts).map DItem.id := by
      have h1 := tsWalk_map_fst ts []
      rw [← h1, List.map_map]
      rfl
    rw [hmm]
    exact List.count_eq_one_of_mem hids (List.mem_map.mpr ⟨it, hit, rfl⟩)
  · intro r hr
    rw [harq, hwalk] at hr
    exact tsWalk_paths ts [] r hr

/-- C9 witness: the concrete tree `tsDemo` at fuel 3 — all hypotheses
hold and the amended walk contract instantiates. -/
theorem indexar_drive_tree_walk_witness :
    ((((0, tsDemo.map itemOfTree) :: tsFolderTable tsDemo).map Prod.fst).Nodup) ∧
    tsDepth tsDemo < 3 ∧
    ((tsItems tsDemo).map DItem.id).Nodup ∧
    ((indexar_drive (cfOf 0 tsDemo) 3 0).arquivos = tsWalk tsDemo [] ∧
     (indexar_drive (cfOf 0 tsDemo) 3 0).total_itens
       = (indexar_drive (cfOf 0 tsDemo) 3 0).arquivos.length ∧
     ((indexar_drive (cfOf 0 tsDemo) 3 0).arquivos.map Prod.fst) = tsItems tsDemo ∧
     (∀ it ∈ tsItems tsDemo,
       ((indexar_drive (cfOf 0 tsDemo) 3 0).arquivos.filter
         (fun r => r.1.id = it.id)).length = 1) ∧
     (∀ r ∈ (indexar_drive (cfOf 0 tsDemo) 3 0).arquivos,
       ∃ pp, r.2 = caminhoItem pp r.1.name)) :=
  ⟨by decide, by decide, by decide,
    indexar_drive_tree_walk 0 tsDemo 3 (by decide) (by decide) (by decide)⟩
